import Mathlib

/-!
# OpenPineScript — verification of the streaming TA engine, plot registry,
# strategy book and indentation-sensitive token source

This file is a shallow embedding, in Lean 4, of the parts of the
OpenPineScript repository that the verified claims are about:

* `runtime/v2/stdlib/ta.ts` — the streaming indicator library
  (`sma`, `rma`, `rsi`, `highest` with its monotonic deque);
* `runtime/v2/context.ts` — the persistent-state table
  (`getPersistentState`), the plot registry (`registerPlot`,
  `finalizeBar`);
* `runtime/v2/stdlib/strategy.ts` — the position/trade ledger
  (`close`, `close_all`);
* `lexer/v2/PineScriptTokenSource.ts` — the indentation shaper
  (`nextToken`, `handleIndentation`);
* `tests/v2/ta/naive_ta.ts` — the naive O(N) reference implementation
  used as the specification side of the SMA refinement claim.

Modelling conventions:

* JavaScript numbers are modelled in exact arithmetic as `ℚ`, wrapped in
  `JVal` which also provides the distinguished `nan` sentinel and the two
  infinities so that division is total.  Real (non-NaN) inputs are plain
  `ℚ`.  A running aggregate that can become NaN (the SMA running sum) is
  an `Option ℚ` where `none` is NaN; arithmetic on it propagates `none`
  exactly as IEEE arithmetic propagates NaN.
* A JavaScript array read out of range yields `undefined`; it is modelled
  with `Option`/`List.get?` (`none` = `undefined`).
* TypeScript arrays pushed at the end are Lean lists appended at the end;
  the two parallel deque arrays `dequeVals`/`dequeIdxs`, which are always
  pushed/popped in lockstep, are one list of pairs.
* Mutation of the `Context` becomes explicit state passing.
-/

namespace OpenPine

/-- A JavaScript number as the TA engine observes it: a real (rational)
value, the not-a-number sentinel, or one of the two infinities. -/
inductive JVal where
  | num (q : ℚ)
  | nan
  | inf
  | negInf
  deriving DecidableEq, Repr

/-- JavaScript division `a / b` of a possibly-NaN numerator (`none` = NaN)
by an integer: NaN propagates, `0/0` is NaN, `a/0` with `a ≠ 0` is a signed
infinity, and anything else is exact rational division. -/
def jsDiv (sum : Option ℚ) (length : ℤ) : JVal :=
  match sum with
  | none => .nan
  | some a =>
    if length = 0 then
      if a = 0 then .nan else if 0 < a then .inf else .negInf
    else .num (a / (length : ℚ))

/-! ## `ta.ts`: SMA (`sma`) -/

/-- Healing interval for running sums (`HEAL_SMA_INTERVAL` in `ta.ts`). -/
def HEAL_SMA_INTERVAL : ℕ := 200

/-- Maximum history size before trimming (`MAX_BUFFER_SIZE` in `ta.ts`). -/
def MAX_BUFFER_SIZE : ℕ := 5000

/-- `SumState` from `ta.ts`: the persistent slot of one `sma` call site.
`sum` is `Option ℚ` because the running sum is a JS number that can become
NaN (subtracting an out-of-range buffer read). -/
structure SumState where
  buffer : List ℚ
  sum : Option ℚ
  prevLength : ℤ
  counter : ℕ
  deriving DecidableEq, Repr

/-- The initial `sma` slot produced by its `getPersistentState` factory. -/
def SumState.init : SumState := ⟨[], some 0, 0, 0⟩

/-- The rebuild loop of `sma`: `for (i = max(0, len - length); i < len; i++)
sum += buffer[i]` — the sum of the trailing `length`-window of `buffer`
(`Int.toNat` realises the `Math.max(0, ·)` clamp). -/
def windowSum (buffer : List ℚ) (length : ℤ) : ℚ :=
  (buffer.drop ((buffer.length : ℤ) - length).toNat).sum

/-- The memory-management step shared by the `ta.ts` indicators: if the
history exceeds `MAX_BUFFER_SIZE`, and also exceeds `length + 500`, keep
only the trailing `length + 500` entries (`buffer.splice(0, len - keep)`). -/
def trimBuffer (buffer : List ℚ) (length : ℤ) : List ℚ :=
  if MAX_BUFFER_SIZE < buffer.length then
    if (length + 500 : ℤ) < (buffer.length : ℤ) then
      buffer.drop ((buffer.length : ℤ) - (length + 500)).toNat
    else buffer
  else buffer

/-- The O(1) running-sum update of `sma`: add the source (already folded
into `sum` by the caller), and if the history now exceeds the window,
subtract the item leaving the window, which sits at index
`(Total - 1) - Length`; an out-of-range read is `undefined` and poisons
the sum to NaN. -/
def smaExitSum (buffer : List ℚ) (sum : Option ℚ) (length : ℤ) : Option ℚ :=
  if (length : ℤ) < (buffer.length : ℤ) then
    match buffer[((buffer.length : ℤ) - 1 - length).toNat]? with
    | some exiting => sum.map (· - exiting)
    | none => none
  else sum

/-- The state-update phase of `sma` (everything before the memory
management and the return): push the source, rebuild the running sum if the
length changed, otherwise do the O(1) update and heal every
`HEAL_SMA_INTERVAL` updates.  (In `ta.ts` the healing check runs after the
O(1) update and overwrites its sum wholesale, so hoisting the healing test
above the O(1) arithmetic is semantics-preserving.) -/
def smaCore (st : SumState) (source : ℚ) (length : ℤ) : SumState :=
  if length ≠ st.prevLength then
    -- DYNAMIC LENGTH HANDLER: rebuild the sum from history
    { buffer := st.buffer ++ [source],
      sum := some (windowSum (st.buffer ++ [source]) length),
      prevLength := length, counter := 0 }
  else if HEAL_SMA_INTERVAL ≤ st.counter + 1 then
    -- HEALING: recompute the sum from scratch
    { buffer := st.buffer ++ [source],
      sum := some (windowSum (st.buffer ++ [source]) length),
      prevLength := st.prevLength, counter := 0 }
  else
    -- O(1) UPDATE
    { buffer := st.buffer ++ [source],
      sum := smaExitSum (st.buffer ++ [source]) (st.sum.map (· + source)) length,
      prevLength := st.prevLength, counter := st.counter + 1 }

/-- `sma(ctx, source, length)` from `ta.ts`, acting on its persistent slot:
update the state (`smaCore`), trim the history, and return the mean (NaN
while the history is shorter than `length`). -/
def sma (st : SumState) (source : ℚ) (length : ℤ) : JVal × SumState :=
  let st := smaCore st source length
  let st := { st with buffer := trimBuffer st.buffer length }
  if (st.buffer.length : ℤ) < length then (.nan, st)
  else (jsDiv st.sum length, st)

/-- Feed a source series through one `sma` call site with a constant
`length`, one call per bar, collecting the per-bar outputs. -/
def smaRun (st : SumState) (sources : List ℚ) (length : ℤ) : List JVal × SumState :=
  match sources with
  | [] => ([], st)
  | s :: rest =>
    ((sma st s length).1 :: (smaRun (sma st s length).2 rest length).1,
     (smaRun (sma st s length).2 rest length).2)

/-! ## `tests/v2/ta/naive_ta.ts`: the naive O(N) reference SMA -/

/-- `NaiveTA.getSlice(length)`: the trailing `length` samples, or `[]`
when fewer than `length` samples exist. -/
def naiveSlice (history : List ℚ) (length : ℕ) : List ℚ :=
  if history.length < length then []
  else history.drop (history.length - length)

/-- `NaiveTA.sma(length)`: NaN when fewer than `length` samples exist,
otherwise the O(N) sum of the trailing slice divided by `length`. -/
def naiveSma (history : List ℚ) (length : ℕ) : JVal :=
  if (naiveSlice history length).length < length then .nan
  else .num ((naiveSlice history length).sum / (length : ℚ))

/-! ## `ta.ts`: rolling extremes (`highest`) via a monotonic deque -/

/-- `DequeState` from `ta.ts`.  The two lockstep arrays `dequeVals` and
`dequeIdxs` (always pushed/popped/shifted together) are modelled as one
list of (value, global index) pairs, front at the head, back at the end. -/
structure DequeState where
  buffer : List ℚ
  deque : List (ℚ × ℤ)
  globalIdx : ℤ
  prevLength : ℤ
  deriving DecidableEq, Repr

/-- The initial deque slot produced by its `getPersistentState` factory. -/
def DequeState.init : DequeState := ⟨[], [], 0, 0⟩

/-- One insertion into the monotonic deque: pop from the back while the
back fails to dominate the incoming value (`back <= val` for a max-deque,
`back >= val` for a min-deque), then push the new pair at the back. -/
def dequeInsert (isMin : Bool) (d : List (ℚ × ℤ)) (v : ℚ) (g : ℤ) : List (ℚ × ℤ) :=
  (d.reverse.dropWhile (fun p => if isMin then v ≤ p.1 else p.1 ≤ v)).reverse ++ [(v, g)]

/-- The rebuild loop of `updateMonotonicDeque`: re-insert a window of
values whose global indices start at `g`. -/
def dequeRebuild (isMin : Bool) (d : List (ℚ × ℤ)) (window : List ℚ) (g : ℤ) :
    List (ℚ × ℤ) :=
  match window with
  | [] => d
  | v :: rest => dequeRebuild isMin (dequeInsert isMin d v g) rest (g + 1)

/-- `updateMonotonicDeque(state, source, length, isMin)` from `ta.ts`:
push the source into the history; if the length changed, rebuild the deque
from the trailing `length` window (the item at buffer position `i` has
global index `globalIdx - (buffer.length - 1 - i)`, so the window's first
item sits at `globalIdx - (window.length - 1)`); otherwise insert the new
sample and evict an expired front (`dequeIdxs[0] <= globalIdx - length`;
on an empty deque that JS comparison is `undefined <= x`, which is false).
Then advance `globalIdx` and trim the history.  (The source sets
`prevLength := length` only in the rebuild branch, but in the other branch
they are already equal, so setting it unconditionally is the same.) -/
def updateMonotonicDeque (st : DequeState) (source : ℚ) (length : ℤ) (isMin : Bool) :
    DequeState :=
  let buffer := st.buffer ++ [source]
  let deque :=
    if length ≠ st.prevLength then
      -- 1. Dynamic Rebuild Check (Full Rebuild if length changes)
      dequeRebuild isMin []
        (buffer.drop ((buffer.length : ℤ) - length).toNat)
        (st.globalIdx -
          (((buffer.drop ((buffer.length : ℤ) - length).toNat).length : ℤ) - 1))
    else
      -- 2. Incremental Update
      match dequeInsert isMin st.deque source st.globalIdx with
      | [] => []
      | (v, i) :: rest =>
        if i ≤ st.globalIdx - length then rest else (v, i) :: rest
  { buffer := trimBuffer buffer length,
    deque := deque,
    globalIdx := st.globalIdx + 1,
    prevLength := length }

/-- `highest(ctx, source, length)` from `ta.ts`: update the max-deque and
return its front value — `undefined` (here `none`) if the deque is empty. -/
def highest (st : DequeState) (source : ℚ) (length : ℤ) : Option ℚ × DequeState :=
  ((updateMonotonicDeque st source length false).deque.head?.map Prod.fst,
   updateMonotonicDeque st source length false)

/-! ## `context.ts`: the plot registry -/

/-- The plot-registry part of `Context`: the global bar index and the
`plots` map.  The insertion-ordered `Map<string, number[]>` is an
association list keyed by title. -/
structure PlotCtx where
  currentBarIndex : ℕ
  plots : List (String × List JVal)
  deriving DecidableEq, Repr

/-- A fresh `Context` (bar 0, no plots). -/
def PlotCtx.init : PlotCtx := ⟨0, []⟩

/-- `Map.get`: the series registered under a title, if any. -/
def plotsGet (ps : List (String × List JVal)) (title : String) : Option (List JVal) :=
  match ps with
  | [] => none
  | (t, s) :: rest => if t = title then some s else plotsGet rest title

/-- `Map.set`: replace the series under an existing title, or append a new
entry (JS `Map` preserves insertion order). -/
def plotsSet (ps : List (String × List JVal)) (title : String) (series : List JVal) :
    List (String × List JVal) :=
  match ps with
  | [] => [(title, series)]
  | (t, s) :: rest =>
    if t = title then (t, series) :: rest else (t, s) :: plotsSet rest title series

/-- `Context.registerPlot(value, title)` from `context.ts`:
A. if the title is unseen, create a series and back-fill NaN until its
length reaches `currentBarIndex` (`while (series.length < currentBarIndex)
series.push(NaN)` — on a fresh empty series this is
`List.replicate currentBarIndex nan`);
B. set the value for the current bar — overwrite `series[currentBarIndex]`
if the series already has an entry for this bar, else push. -/
def registerPlot (ctx : PlotCtx) (value : JVal) (title : String) : PlotCtx :=
  let series :=
    match plotsGet ctx.plots title with
    | some s => s
    | none => List.replicate ctx.currentBarIndex JVal.nan
  let series :=
    if ctx.currentBarIndex < series.length then series.set ctx.currentBarIndex value
    else series ++ [value]
  { ctx with plots := plotsSet ctx.plots title series }

/-- `Context.finalizeBar()` from `context.ts`: pad every series that got no
value on this bar with NaN (`series.length <= currentBarIndex`), then
increment the global bar index. -/
def finalizeBar (ctx : PlotCtx) : PlotCtx :=
  { currentBarIndex := ctx.currentBarIndex + 1,
    plots := ctx.plots.map (fun p =>
      (p.1, if p.2.length ≤ ctx.currentBarIndex then p.2 ++ [JVal.nan] else p.2)) }

/-- An observable plot-registry action during a run: one `registerPlot`
call or one `finalizeBar` call. -/
inductive PlotOp where
  | reg (value : JVal) (title : String)
  | fin
  deriving DecidableEq, Repr

def applyPlotOp (ctx : PlotCtx) : PlotOp → PlotCtx
  | .reg v t => registerPlot ctx v t
  | .fin => finalizeBar ctx

/-- A run of the plot registry from a fresh context. -/
def runPlotOps (ops : List PlotOp) : PlotCtx := ops.foldl applyPlotOp PlotCtx.init

/-! ## Scenario S5: `plot(highest(close, 5), "h")` over `close = 1..50` -/

/-- One bar of scenario S5: `v := highest(ctx, close, 5)`,
`ctx.registerPlot(v, "h")`, `ctx.finalizeBar()`.  With `length = 5 ≥ 1`
the deque is never empty, so the `undefined` case of `highest` cannot
arise; it is mapped to NaN for the plot. -/
def s5Bar (st : DequeState × PlotCtx) (price : ℚ) : DequeState × PlotCtx :=
  ((highest st.1 price 5).2,
   finalizeBar (registerPlot st.2
     (match (highest st.1 price 5).1 with
      | some q => JVal.num q
      | none => JVal.nan) "h"))

/-- Scenario S5's feed loop over a list of closes. -/
def s5Run (prices : List ℚ) : DequeState × PlotCtx :=
  prices.foldl s5Bar (DequeState.init, PlotCtx.init)

/-- The S5 input series `close = 1, 2, …, 50`. -/
def s5Prices : List ℚ := (List.range 50).map (fun i => ((i + 1 : ℕ) : ℚ))

/-! ## `strategy.ts`: the position and trade ledger -/

/-- `Trade` from `context.ts`. -/
structure Trade where
  id : String
  entryTime : ℤ
  entryPrice : ℚ
  exitTime : ℤ
  exitPrice : ℚ
  qty : ℚ
  pnl : ℚ
  direction : String
  deriving DecidableEq, Repr

/-- `Position` from `context.ts`: signed size (`+` long, `-` short) and
average entry price. -/
structure Position where
  size : ℚ
  avgPrice : ℚ
  deriving DecidableEq, Repr

/-- The strategy-facing part of `Context`: current close and time, the
open position, the cash balance and the trades log. -/
structure StratCtx where
  close : ℚ
  time : ℤ
  position : Position
  cash : ℚ
  trades : List Trade
  deriving DecidableEq, Repr

/-- `close_all(ctx, comment)` from `strategy.ts`: a no-op on a flat
position; otherwise compute PnL (`(exit − entry)·qty` long,
`(entry − exit)·qty` short, with `qty = |size|`), record one trade
(`comment || "Close"` is the JS falsy-default on the empty string), add
the PnL to cash, and reset the position to zero. -/
def close_all (ctx : StratCtx) (comment : String) : StratCtx :=
  if ctx.position.size = 0 then ctx
  else
    { ctx with
      trades := ctx.trades ++
        [{ id := if comment = "" then "Close" else comment,
           entryTime := 0,
           entryPrice := ctx.position.avgPrice,
           exitTime := ctx.time,
           exitPrice := ctx.close,
           qty := |ctx.position.size|,
           pnl := if 0 < ctx.position.size
             then (ctx.close - ctx.position.avgPrice) * |ctx.position.size|
             else (ctx.position.avgPrice - ctx.close) * |ctx.position.size|,
           direction := if 0 < ctx.position.size then "long" else "short" }],
      cash := ctx.cash +
        (if 0 < ctx.position.size
         then (ctx.close - ctx.position.avgPrice) * |ctx.position.size|
         else (ctx.position.avgPrice - ctx.close) * |ctx.position.size|),
      position := { size := 0, avgPrice := 0 } }

/-- `close(ctx, id)` from `strategy.ts`: ignores the id and closes the
current position via `close_all` with comment `"Close " + id`. -/
def strategyClose (ctx : StratCtx) (id : String) : StratCtx :=
  close_all ctx ("Close " ++ id)

/-! ## `context.ts` + `ta.ts`: persistent-state table, `rma`, `rsi` -/

/-- The typed persistent slots needed by `rsi`: the `EmaState` record
`{ prev }` used by `rma`, and `rsi`'s own `{ prevSrc }` record. -/
inductive Slot where
  | emaS (prev : Option ℚ)
  | srcS (prevSrc : Option ℚ)
  deriving DecidableEq, Repr

/-- The slot-table part of `Context`: `states` (a dense JS array in which
a missing or out-of-range entry reads as `undefined`, here `none`) and the
per-bar `callCounter`. -/
structure TaCtx where
  states : List (Option Slot)
  callCounter : ℕ
  deriving DecidableEq, Repr

/-- A fresh `Context` slot table. -/
def TaCtx.init : TaCtx := ⟨[], 0⟩

/-- The JS array read `states[idx]`: out of range or a hole is
`undefined`. -/
def statesGet (states : List (Option Slot)) (idx : ℕ) : Option Slot :=
  (states[idx]?).getD none

/-- The JS array write `states[idx] = v`: in range overwrites; past the
end extends the array, leaving holes for skipped indices. -/
def statesSet (states : List (Option Slot)) (idx : ℕ) (v : Slot) : List (Option Slot) :=
  if idx < states.length then states.set idx (some v)
  else (states ++ List.replicate (idx - states.length) none) ++ [some v]

/-- `Context.getPersistentState(initFn)` from `context.ts`: read the slot
at the call counter (initialising it via the factory if it reads as
`undefined`) and advance the counter. -/
def getPersistentState (ctx : TaCtx) (init : Slot) : Slot × TaCtx :=
  match statesGet ctx.states ctx.callCounter with
  | some s => (s, { ctx with callCounter := ctx.callCounter + 1 })
  | none => (init, { states := statesSet ctx.states ctx.callCounter init,
                     callCounter := ctx.callCounter + 1 })

/-- The JS property read `state.prevSrc`: reading the field off an object
of the wrong shape yields `undefined`. -/
def rsiPrevSrc : Option Slot → Option ℚ
  | some (.srcS p) => p
  | _ => none

/-- The JS property read `state.prev` of `rma`'s `EmaState`. -/
def emaPrev : Slot → Option ℚ
  | .emaS p => p
  | _ => none

/-- `rma(ctx, source, length)` from `ta.ts`, against the slot table: take
its persistent slot; on the first sample, store and return the source;
afterwards apply `y = α·source + (1−α)·y_prev` with `α = 1/length` and
store the result.  The caller's mutation `state.prev = …` is the write-back
at the slot's own index; on a slot of the wrong shape (reachable only from
a corrupted table, never from `rsi`'s own call discipline) JS would keep
the foreign object's other fields, while this embedding replaces the
record.  (Rational `1/0 = 0` where JS would produce an infinite `α`; the
slot-accounting claims are independent of the stored numeric value.) -/
def rmaC (ctx : TaCtx) (source : ℚ) (length : ℤ) : ℚ × TaCtx :=
  let r := getPersistentState ctx (.emaS none)
  match emaPrev r.1 with
  | none =>
    (source, { r.2 with
      states := statesSet r.2.states ctx.callCounter (.emaS (some source)) })
  | some p =>
    (source * (1 / (length : ℚ)) + p * (1 - 1 / (length : ℚ)),
     { r.2 with
       states := statesSet r.2.states ctx.callCounter
         (.emaS (some (source * (1 / (length : ℚ)) + p * (1 - 1 / (length : ℚ))))) })

/-- `rsi(ctx, source, length)` from `ta.ts`, against the slot table: take
its `prevSrc` slot; on the first bar, store the source, still invoke both
`rma` sub-calls with input 0, and return NaN; on later bars feed the
clamped gain/loss into the two `rma` calls and combine
(`avgLoss == 0` short-circuits to 100). -/
def rsiC (ctx : TaCtx) (source : ℚ) (length : ℤ) : JVal × TaCtx :=
  let r := getPersistentState ctx (.srcS none)
  match rsiPrevSrc (some r.1) with
  | none =>
    (.nan,
     (rmaC (rmaC { r.2 with
        states := statesSet r.2.states ctx.callCounter (.srcS (some source)) }
        0 length).2 0 length).2)
  | some p =>
    let change := source - p
    let ctx1 : TaCtx := { r.2 with
      states := statesSet r.2.states ctx.callCounter (.srcS (some source)) }
    let rg := rmaC ctx1 (max change 0) length
    let rl := rmaC rg.2 (max (-change) 0) length
    (if rl.1 = 0 then JVal.num 100
     else JVal.num (100 - 100 / (1 + rg.1 / rl.1)), rl.2)

/-! ## `PineScriptTokenSource.ts`: the indentation shaper -/

/-- The token kinds the shaper inspects: the bracket tokens that drive
`parenLevel`, the physical newline-plus-indentation run `LBEG`, the
virtual layout tokens `BEGIN`/`END`/`LEND`, `EOF`, and everything else. -/
inductive TType where
  | LPAR
  | RPAR
  | LSQBR
  | RSQBR
  | LBEG
  | BEGIN
  | END
  | LEND
  | EOFT
  | OTHER
  deriving DecidableEq, Repr

/-- A token as the shaper sees it: kind, lexeme text, and start column. -/
structure Tok where
  ttype : TType
  text : String
  column : ℕ
  deriving DecidableEq, Repr

/-- The channel the lexer reports after scanning a token.  The grammar
(`PineScriptLexer.g4`) contains no channel actions, so `getChannel()` is
always the default channel 0. -/
def lexerChannel : ℕ := 0

/-- ANTLR's hidden channel number. -/
def HIDDEN_CHANNEL : ℕ := 1

/-- The shaper's state: the indent stack (head = top; the source pushes
and pops at the end of a JS array), the latched indent unit used only for
the style warning, and the bracket-nesting counter. -/
structure LexSt where
  indentStack : List ℕ
  indentUnit : Option ℕ
  parenLevel : ℕ
  deriving DecidableEq, Repr

/-- The initial shaper state: `indentStack = [0]`. -/
def LexSt.init : LexSt := ⟨[0], none, 0⟩

/-- The indent width of an `LBEG` lexeme: the characters after the last
newline, with each tab expanded to four columns. -/
def indentWidth (text : String) : ℕ :=
  (((text.toList.reverse.takeWhile (fun c => c ≠ '\n')).reverse).map
    (fun c => if c = '\t' then 4 else 1)).sum

/-- `createVirtualToken`: a virtual token carrying the trigger's
position. -/
def vtok (ty : TType) (text : String) (orig : Tok) : Tok := ⟨ty, text, orig.column⟩

/-- How many entries the dedent loop pops:
`while (indentStack.length > 1 && w < top) pop`. -/
def popCount (stack : List ℕ) (w : ℕ) : ℕ :=
  match stack with
  | [] => 0
  | [_] => 0
  | x :: rest => if w < x then popCount rest w + 1 else 0

/-- `handleIndentation(indentLength, triggerToken, isEOF)` from
`PineScriptTokenSource.ts`, returning the tokens delivered to the parser
(the queued virtual tokens in order, with a preserved trigger last) and
the new state.
* indent: push, emit one virtual BEGIN (an inconsistent indent unit only
  logs a warning);
* dedent: emit one virtual LEND, one virtual END per popped entry, and
  then one more virtual LEND — the guard `indentStack.length > 0` is
  always true because the base entry 0 is never popped, and a landing
  width that matches no remaining entry only logs an error;
* same level: an `LBEG` trigger becomes a single virtual LEND, any other
  trigger passes through. -/
def handleIndentation (st : LexSt) (w : ℕ) (trigger : Tok) (isEOF : Bool) :
    List Tok × LexSt :=
  if st.indentStack.headD 0 < w then
    ([vtok .BEGIN "<BEGIN>" trigger],
     { st with indentStack := w :: st.indentStack,
               indentUnit := match st.indentUnit with
                 | none => some (w - st.indentStack.headD 0)
                 | some u => some u })
  else if w < st.indentStack.headD 0 then
    ((if trigger.ttype ≠ TType.LBEG ∧ ¬ isEOF then
        (vtok .LEND "<LEND>" trigger ::
          (List.replicate (popCount st.indentStack w) (vtok .END "<END>" trigger)
            ++ [vtok .LEND "<LEND>" trigger])) ++ [trigger]
      else if isEOF then
        (vtok .LEND "<LEND>" trigger ::
          (List.replicate (popCount st.indentStack w) (vtok .END "<END>" trigger)
            ++ [vtok .LEND "<LEND>" trigger])) ++ [trigger]
      else
        vtok .LEND "<LEND>" trigger ::
          (List.replicate (popCount st.indentStack w) (vtok .END "<END>" trigger)
            ++ [vtok .LEND "<LEND>" trigger])),
     { st with indentStack := st.indentStack.drop (popCount st.indentStack w) })
  else
    ((if trigger.ttype = TType.LBEG then [vtok .LEND "<LEND>" trigger] else [trigger]),
     st)

/-- `nextToken()` from `PineScriptTokenSource.ts`, as the list of tokens
delivered to the parser for one physical token: track brackets (the
decrement is guarded by `parenLevel > 0`, which truncated ℕ subtraction
matches); an `LBEG` inside brackets bypasses layout (it would be skipped
only if the lexer channel were hidden, which it never is — the raw token
is returned); an `LBEG` outside brackets runs the layout shaper on its
indent width; a column-0 token with a grown stack forces an implicit
dedent to 0 with the token delivered after the virtual tokens; EOF dedents
to 0 and is delivered last. -/
def nextTokenStep (st : LexSt) (t : Tok) : List Tok × LexSt :=
  let st1 : LexSt :=
    { st with parenLevel :=
        match t.ttype with
        | .LPAR | .LSQBR => st.parenLevel + 1
        | .RPAR | .RSQBR => st.parenLevel - 1
        | _ => st.parenLevel }
  if t.ttype = TType.LBEG then
    if 0 < st1.parenLevel then
      (if lexerChannel = HIDDEN_CHANNEL then [] else [t], st1)
    else
      handleIndentation st1 (indentWidth t.text) t false
  else if t.column = 0 ∧ t.ttype ≠ TType.EOFT ∧ 1 < st1.indentStack.length then
    handleIndentation st1 0 t false
  else if t.ttype = TType.EOFT then
    handleIndentation st1 0 t true
  else ([t], st1)

/-- The whole shaped token stream of a physical token list. -/
def runLexer (toks : List Tok) : List Tok × LexSt :=
  toks.foldl
    (fun acc t => (acc.1 ++ (nextTokenStep acc.2 t).1, (nextTokenStep acc.2 t).2))
    ([], LexSt.init)

/-! ## Invariants used by the proofs -/

/-- The invariant tying one `sma` call site's state to the full history of
sources fed to it under a constant window length `L`: the retained buffer
is a trailing segment of the history, is only ever trimmed down to
`L + 500` entries, and (once the length has been latched) the running sum
is exactly the trailing `L`-window sum of the buffer. -/
def SmaInv (hist : List ℚ) (L : ℕ) (st : SumState) : Prop :=
  st.buffer <:+ hist
  ∧ (st.buffer = hist ∨ L + 500 ≤ st.buffer.length)
  ∧ (st.prevLength = (L : ℤ) → st.sum = some (windowSum st.buffer (L : ℤ)))

/-- The plot-registry alignment invariant: during a bar, every registered
series covers either every finalized bar (length `currentBarIndex`) or
additionally the bar in progress (length `currentBarIndex + 1`). -/
def PlotAligned (ctx : PlotCtx) : Prop :=
  ∀ p ∈ ctx.plots,
    p.2.length = ctx.currentBarIndex ∨ p.2.length = ctx.currentBarIndex + 1

/-! ### Trailing-window list facts -/

lemma windowSum_natCast (l : List ℚ) (L : ℕ) :
    windowSum l (L : ℤ) = (l.drop (l.length - L)).sum := by
  have h : ((l.length : ℤ) - (L : ℤ)).toNat = l.length - L := by omega
  simp [windowSum, h]

lemma suffix_trailing_eq {α : Type} (buf hist : List α) (L : ℕ) (hsfx : buf <:+ hist)
    (hlen : L ≤ buf.length) :
    buf.drop (buf.length - L) = hist.drop (hist.length - L) := by
  have hle := hsfx.length_le
  have heq := List.suffix_iff_eq_drop.mp hsfx
  calc buf.drop (buf.length - L)
      = (hist.drop (hist.length - buf.length)).drop (buf.length - L) := by rw [← heq]
    _ = hist.drop ((hist.length - buf.length) + (buf.length - L)) := List.drop_drop _ _ _
    _ = hist.drop (hist.length - L) := by congr 1; omega

lemma windowSum_append (l : List ℚ) (x : ℚ) (L : ℕ) (h1 : 1 ≤ L) :
    windowSum (l ++ [x]) (L : ℤ) = (l.drop (l.length + 1 - L)).sum + x := by
  rw [windowSum_natCast]
  have hlen : (l ++ [x]).length = l.length + 1 := by simp
  rw [hlen, List.drop_append_of_le_length (by omega), List.sum_append]
  simp

lemma trailing_sum_step (l : List ℚ) (L : ℕ) (h1 : 1 ≤ L) (h2 : L ≤ l.length) :
    (l.drop (l.length - L)).sum
      = l.get ⟨l.length - L, by omega⟩ + (l.drop (l.length - L + 1)).sum := by
  rw [List.drop_eq_getElem_cons (by omega), List.sum_cons]
  rfl

lemma suffix_append_single {α : Type} (l₁ l₂ : List α) (x : α) (h : l₁ <:+ l₂) :
    l₁ ++ [x] <:+ l₂ ++ [x] := by
  obtain ⟨t, rfl⟩ := h
  exact ⟨t, by simp⟩

/-- Properties of the memory-management step: the trimmed history is a
suffix of the original, is either untouched or exactly `L + 500` long, and
has the same trailing `L`-window sum. -/
lemma trimBuffer_spec (l : List ℚ) (L : ℕ) :
    trimBuffer l (L : ℤ) <:+ l
  ∧ (trimBuffer l (L : ℤ) = l ∨ (trimBuffer l (L : ℤ)).length = L + 500)
  ∧ windowSum (trimBuffer l (L : ℤ)) (L : ℤ) = windowSum l (L : ℤ) := by
  unfold trimBuffer
  by_cases h1 : MAX_BUFFER_SIZE < l.length
  · by_cases h2 : ((L : ℤ) + 500) < (l.length : ℤ)
    · have hd : (((l.length : ℤ)) - ((L : ℤ) + 500)).toNat = l.length - (L + 500) := by
        omega
      simp only [if_pos h1, if_pos h2, hd]
      refine ⟨List.drop_suffix _ _, Or.inr ?_, ?_⟩
      · simp; omega
      · rw [windowSum_natCast, windowSum_natCast,
          suffix_trailing_eq (l.drop (l.length - (L + 500))) l L (List.drop_suffix _ _)
            (by simp; omega)]
    · simp [if_pos h1, if_neg h2]
  · simp [if_neg h1]

/-! ### The SMA streaming invariant -/

lemma smaInv_init (L : ℕ) : SmaInv [] L SumState.init := by
  refine ⟨List.nil_suffix, Or.inl rfl, fun _ => ?_⟩
  simp [SumState.init, windowSum]

/-- After the update phase the buffer has grown by the new source, the
length is latched, and the running sum is the exact trailing window sum. -/
lemma smaCore_spec (hist : List ℚ) (L : ℕ) (hL : 1 ≤ L) (st : SumState)
    (h : SmaInv hist L st) (s : ℚ) :
    (smaCore st s (L : ℤ)).buffer = st.buffer ++ [s]
  ∧ (smaCore st s (L : ℤ)).prevLength = (L : ℤ)
  ∧ (smaCore st s (L : ℤ)).sum = some (windowSum (st.buffer ++ [s]) (L : ℤ)) := by
  obtain ⟨hsfx, hor, hsum⟩ := h
  unfold smaCore
  by_cases hprev : (L : ℤ) = st.prevLength
  · have hsum' := hsum hprev.symm
    rw [if_neg (not_not_intro hprev)]
    by_cases hheal : HEAL_SMA_INTERVAL ≤ st.counter + 1
    · rw [if_pos hheal]
      exact ⟨rfl, hprev.symm, rfl⟩
    · rw [if_neg hheal]
      refine ⟨rfl, hprev.symm, ?_⟩
      show smaExitSum (st.buffer ++ [s]) (st.sum.map (· + s)) (L : ℤ)
          = some (windowSum (st.buffer ++ [s]) (L : ℤ))
      unfold smaExitSum
      by_cases hfull : ((L : ℤ)) < (((st.buffer ++ [s]).length : ℤ))
      · -- the window is full: add the source, subtract the exiting value
        have hlen : (st.buffer ++ [s]).length = st.buffer.length + 1 := by simp
        have hLle : L ≤ st.buffer.length := by
          rw [hlen] at hfull; push_cast at hfull; omega
        have hidx : ((((st.buffer ++ [s]).length : ℤ)) - 1 - (L : ℤ)).toNat
            = st.buffer.length - L := by rw [hlen]; push_cast; omega
        have hlt : st.buffer.length - L < st.buffer.length := by omega
        have hget : (st.buffer ++ [s])[st.buffer.length - L]?
            = some (st.buffer.get ⟨st.buffer.length - L, hlt⟩) := by
          rw [List.getElem?_append_left (by omega)]
          exact List.getElem?_eq_getElem hlt
        rw [if_pos hfull, hidx, hget, hsum']
        simp only [Option.map_some']
        rw [windowSum_append _ _ _ hL, windowSum_natCast,
          trailing_sum_step _ _ hL hLle]
        congr 1
        have h1 : st.buffer.length + 1 - L = st.buffer.length - L + 1 := by omega
        rw [h1]
        ring
      · -- still warming up: the window is the whole buffer
        have hlen : (st.buffer ++ [s]).length = st.buffer.length + 1 := by simp
        have hge : st.buffer.length + 1 ≤ L := by
          rw [hlen] at hfull; push_cast at hfull; omega
        rw [if_neg hfull, hsum']
        simp only [Option.map_some']
        rw [windowSum_append _ _ _ hL, windowSum_natCast]
        have h1 : st.buffer.length + 1 - L = 0 := by omega
        have h2 : st.buffer.length - L = 0 := by omega
        rw [h1, h2]
  · exact ⟨by rw [if_pos (fun hc => hprev hc)], by rw [if_pos (fun hc => hprev hc)],
      by rw [if_pos (fun hc => hprev hc)]⟩

/-- One streaming `sma` step agrees with the naive reference and preserves
the invariant. -/
lemma sma_step (hist : List ℚ) (L : ℕ) (hL : 1 ≤ L) (st : SumState)
    (h : SmaInv hist L st) (s : ℚ) :
    (sma st s (L : ℤ)).1 = naiveSma (hist ++ [s]) L
  ∧ SmaInv (hist ++ [s]) L (sma st s (L : ℤ)).2 := by
  obtain ⟨hbuf, hprev, hsum⟩ := smaCore_spec hist L hL st h s
  obtain ⟨hsfx, hor, _⟩ := h
  have hout : (sma st s (L : ℤ)).1
      = (if ((trimBuffer (smaCore st s (L : ℤ)).buffer (L : ℤ)).length : ℤ) < (L : ℤ)
         then JVal.nan else jsDiv (smaCore st s (L : ℤ)).sum (L : ℤ)) := by
    unfold sma
    by_cases hc : ((trimBuffer (smaCore st s (L : ℤ)).buffer (L : ℤ)).length : ℤ) < (L : ℤ) <;>
      simp [hc]
  have hst2buf : (sma st s (L : ℤ)).2.buffer
      = trimBuffer (smaCore st s (L : ℤ)).buffer (L : ℤ) := by
    unfold sma
    by_cases hc : ((trimBuffer (smaCore st s (L : ℤ)).buffer (L : ℤ)).length : ℤ) < (L : ℤ) <;>
      simp [hc]
  have hst2sum : (sma st s (L : ℤ)).2.sum = (smaCore st s (L : ℤ)).sum := by
    unfold sma
    by_cases hc : ((trimBuffer (smaCore st s (L : ℤ)).buffer (L : ℤ)).length : ℤ) < (L : ℤ) <;>
      simp [hc]
  obtain ⟨htsfx, htor, htsum⟩ := trimBuffer_spec (smaCore st s (L : ℤ)).buffer L
  set buf2 := trimBuffer (smaCore st s (L : ℤ)).buffer (L : ℤ) with hbuf2
  have hsfx2 : buf2 <:+ hist ++ [s] :=
    htsfx.trans (hbuf ▸ suffix_append_single _ _ _ hsfx)
  have hor2 : buf2 = hist ++ [s] ∨ L + 500 ≤ buf2.length := by
    rcases htor with he | hlen
    · rw [he, hbuf]
      rcases hor with h' | h'
      · exact Or.inl (by rw [h'])
      · exact Or.inr (by simp; omega)
    · exact Or.inr (by rw [hlen])
  have hsum2 : some (windowSum buf2 (L : ℤ)) = (smaCore st s (L : ℤ)).sum := by
    rw [htsum, hsum, hbuf]
  have hwarm : ((buf2.length : ℤ) < (L : ℤ)) ↔ ((hist ++ [s]).length < L) := by
    rcases hor2 with he | hlen
    · rw [he]; exact_mod_cast Iff.rfl
    · have := hsfx2.length_le
      constructor
      · intro hcontra; push_cast at hcontra; omega
      · intro hcontra; omega
  have hwin : L ≤ buf2.length →
      windowSum buf2 (L : ℤ) = ((hist ++ [s]).drop ((hist ++ [s]).length - L)).sum := by
    intro hge
    rw [windowSum_natCast, suffix_trailing_eq buf2 (hist ++ [s]) L hsfx2 hge]
  constructor
  · rw [hout]
    by_cases hcase : ((hist ++ [s]).length) < L
    · rw [if_pos (hwarm.mpr hcase)]
      have h0 : naiveSlice (hist ++ [s]) L = [] := by
        unfold naiveSlice
        exact if_pos hcase
      unfold naiveSma
      rw [h0]
      exact (if_pos (by simp; omega)).symm
    · push_neg at hcase
      have hge2 : L ≤ buf2.length := by
        by_contra hcon
        push_neg at hcon
        have := hwarm.mp (by exact_mod_cast hcon)
        omega
      have hnlt : ¬ ((buf2.length : ℤ) < (L : ℤ)) := by omega
      rw [if_neg hnlt, ← hsum2]
      simp only [jsDiv]
      have hLne : (L : ℤ) ≠ 0 := by omega
      rw [if_neg hLne, hwin hge2]
      have h0 : naiveSlice (hist ++ [s]) L = (hist ++ [s]).drop ((hist ++ [s]).length - L) := by
        unfold naiveSlice
        exact if_neg (by omega)
      have hne : ¬ ((naiveSlice (hist ++ [s]) L).length < L) := by
        rw [h0, List.length_drop]; omega
      unfold naiveSma
      rw [if_neg hne, h0]
      norm_num
  · refine ⟨?_, ?_, fun _ => ?_⟩
    · rw [hst2buf]; exact hsfx2
    · rw [hst2buf]; exact hor2
    · rw [hst2sum, hst2buf, ← hsum2]

/-- Feeding a whole source list: each output is the naive reference value
of the corresponding history prefix. -/
lemma smaRun_spec (L : ℕ) (hL : 1 ≤ L) :
    ∀ (sources hist : List ℚ) (st : SumState), SmaInv hist L st →
    (smaRun st sources (L : ℤ)).1
      = (List.range sources.length).map
          (fun i => naiveSma (hist ++ sources.take (i + 1)) L) := by
  intro sources
  induction sources with
  | nil => intro hist st _; simp [smaRun]
  | cons s rest ih =>
    intro hist st h
    obtain ⟨hout, hinv⟩ := sma_step hist L hL st h s
    simp only [smaRun]
    rw [hout, ih (hist ++ [s]) (sma st s (L : ℤ)).2 hinv]
    rw [List.length_cons, List.range_succ_eq_map, List.map_cons, List.map_map]
    congr 1
    apply List.map_congr_left
    intro i _
    simp [Function.comp, List.take_succ_cons, List.append_assoc]

/-- **C1.** For every source series and every constant window length
`L ≥ 1`, the streaming `sma` returns the NaN sentinel while fewer than `L`
samples have been fed, and afterwards returns the arithmetic mean of the
last `L` source values — exactly (in the exact rational arithmetic of this
embedding) the value of the naive O(N) reference `NaiveTA.sma` on the same
history prefix, hence certainly within ε = 10⁻⁶ of it. -/
theorem sma_streaming_matches_naive (sources : List ℚ) (L : ℕ) (hL : 1 ≤ L) :
    (smaRun SumState.init sources (L : ℤ)).1
      = (List.range sources.length).map (fun i => naiveSma (sources.take (i + 1)) L)
  ∧ ∀ i : ℕ, i < sources.length →
      ((i + 1 < L → (smaRun SumState.init sources (L : ℤ)).1[i]? = some JVal.nan)
       ∧ (L ≤ i + 1 → (smaRun SumState.init sources (L : ℤ)).1[i]?
            = some (JVal.num ((naiveSlice (sources.take (i + 1)) L).sum / (L : ℚ))))) := by
  have hmain := smaRun_spec L hL sources [] SumState.init (smaInv_init L)
  simp only [List.nil_append] at hmain
  refine ⟨hmain, ?_⟩
  intro i hi
  have hget : (smaRun SumState.init sources (L : ℤ)).1[i]?
      = some (naiveSma (sources.take (i + 1)) L) := by
    rw [hmain, List.getElem?_map, List.getElem?_range hi]
    rfl
  have hlen : (sources.take (i + 1)).length = i + 1 := by
    rw [List.length_take]; omega
  constructor
  · intro hwarm
    have h0 : naiveSlice (sources.take (i + 1)) L = [] := by
      unfold naiveSlice
      rw [hlen]
      exact if_pos (by omega)
    have h1 : naiveSma (sources.take (i + 1)) L = JVal.nan := by
      unfold naiveSma
      rw [h0]
      exact if_pos (by simp only [List.length_nil]; omega)
    rw [hget, h1]
  · intro hfull
    have h1 : naiveSma (sources.take (i + 1)) L
        = JVal.num ((naiveSlice (sources.take (i + 1)) L).sum / (L : ℚ)) := by
      unfold naiveSma
      have h0 : naiveSlice (sources.take (i + 1)) L
          = (sources.take (i + 1)).drop ((sources.take (i + 1)).length - L) := by
        unfold naiveSlice
        exact if_neg (by omega)
      have hne : ¬ ((naiveSlice (sources.take (i + 1)) L).length < L) := by
        rw [h0, List.length_drop, hlen]; omega
      rw [if_neg hne]
    rw [hget, h1]

/-- Witness for C1: sources `1, 2, 3` with `L = 2` produce
`NaN, 3/2, 5/2`. -/
theorem sma_streaming_matches_naive_witness :
    (smaRun SumState.init [1, 2, 3] ((2 : ℕ) : ℤ)).1
      = [JVal.nan, JVal.num (3 / 2), JVal.num (5 / 2)] := by
  have h := sma_streaming_matches_naive [1, 2, 3] 2 (by norm_num)
  rw [h.1]
  norm_num [naiveSma, naiveSlice, List.range_succ]

/-! ### Plot-registry lemmas (C2, C7) -/

lemma plotsGet_plotsSet_self (ps : List (String × List JVal)) (t : String)
    (s : List JVal) : plotsGet (plotsSet ps t s) t = some s := by
  induction ps with
  | nil => simp [plotsGet, plotsSet]
  | cons p rest ih =>
    by_cases h : p.1 = t
    · simp [plotsGet, plotsSet, h]
    · simp [plotsGet, plotsSet, h, ih]

lemma mem_plotsSet (ps : List (String × List JVal)) (t : String) (s : List JVal)
    (q : String × List JVal) (hq : q ∈ plotsSet ps t s) : q.2 = s ∨ q ∈ ps := by
  induction ps with
  | nil =>
    simp [plotsSet] at hq
    exact Or.inl (by rw [hq])
  | cons p rest ih =>
    by_cases h : p.1 = t
    · simp only [plotsSet, if_pos h, List.mem_cons] at hq
      rcases hq with hq | hq
      · exact Or.inl (by rw [hq])
      · exact Or.inr (List.mem_cons_of_mem _ hq)
    · simp only [plotsSet, if_neg h, List.mem_cons] at hq
      rcases hq with hq | hq
      · exact Or.inr (by rw [hq]; exact List.mem_cons_self _ _)
      · rcases ih hq with h' | h'
        · exact Or.inl h'
        · exact Or.inr (List.mem_cons_of_mem _ h')

lemma plotsGet_mem (ps : List (String × List JVal)) (t : String) (s : List JVal)
    (h : plotsGet ps t = some s) : ∃ t₀, (t₀, s) ∈ ps := by
  induction ps with
  | nil => simp [plotsGet] at h
  | cons p rest ih =>
    by_cases hp : p.1 = t
    · rw [show p = (p.1, p.2) from rfl, plotsGet, if_pos hp] at h
      exact ⟨p.1, by simp [← Option.some_inj.mp h]⟩
    · rw [show p = (p.1, p.2) from rfl, plotsGet, if_neg hp] at h
      obtain ⟨t₀, ht⟩ := ih h
      exact ⟨t₀, List.mem_cons_of_mem _ ht⟩

/-- `registerPlot` preserves the alignment invariant. -/
lemma registerPlot_aligned (ctx : PlotCtx) (v : JVal) (t : String)
    (h : PlotAligned ctx) : PlotAligned (registerPlot ctx v t) := by
  intro q hq
  show q.2.length = ctx.currentBarIndex ∨ q.2.length = ctx.currentBarIndex + 1
  rcases hget : plotsGet ctx.plots t with _ | s
  · -- unseen title: fresh back-filled series plus the new value
    have hplots : (registerPlot ctx v t).plots
        = plotsSet ctx.plots t (List.replicate ctx.currentBarIndex JVal.nan ++ [v]) := by
      unfold registerPlot
      rw [hget]
      simp
    rw [hplots] at hq
    rcases mem_plotsSet _ _ _ _ hq with he | hmem
    · right; rw [he]; simp
    · exact h q hmem
  · obtain ⟨t₀, hmem0⟩ := plotsGet_mem _ _ _ hget
    rcases h (t₀, s) hmem0 with hlen | hlen <;> simp only at hlen
    · -- the series covers only the finalized bars: push
      have hplots : (registerPlot ctx v t).plots = plotsSet ctx.plots t (s ++ [v]) := by
        unfold registerPlot
        rw [hget]
        simp only [if_neg (show ¬ ctx.currentBarIndex < s.length by omega)]
      rw [hplots] at hq
      rcases mem_plotsSet _ _ _ _ hq with he | hmem
      · right; rw [he]; simp [hlen]
      · exact h q hmem
    · -- the series already has a value for this bar: overwrite in place
      have hplots : (registerPlot ctx v t).plots
          = plotsSet ctx.plots t (s.set ctx.currentBarIndex v) := by
        unfold registerPlot
        rw [hget]
        simp only [if_pos (show ctx.currentBarIndex < s.length by omega)]
      rw [hplots] at hq
      rcases mem_plotsSet _ _ _ _ hq with he | hmem
      · right; rw [he]; simp [hlen]
      · exact h q hmem

/-- After `finalizeBar`, every registered series covers exactly the
finalized bars. -/
lemma finalizeBar_aligns (ctx : PlotCtx) (h : PlotAligned ctx) :
    ∀ p ∈ (finalizeBar ctx).plots,
      p.2.length = (finalizeBar ctx).currentBarIndex := by
  intro p hp
  simp only [finalizeBar, List.mem_map] at hp
  obtain ⟨q, hq, rfl⟩ := hp
  rcases h q hq with hlen | hlen
  · simp [finalizeBar, if_pos (by omega : q.2.length ≤ ctx.currentBarIndex), hlen]
  · simp [finalizeBar, if_neg (by omega : ¬ q.2.length ≤ ctx.currentBarIndex), hlen]

/-- `finalizeBar` preserves the alignment invariant. -/
lemma finalizeBar_aligned (ctx : PlotCtx) (h : PlotAligned ctx) :
    PlotAligned (finalizeBar ctx) := by
  intro p hp
  exact Or.inl (finalizeBar_aligns ctx h p hp)

/-- Every reachable plot-registry state is aligned. -/
lemma runPlotOps_aligned (ops : List PlotOp) : PlotAligned (runPlotOps ops) := by
  have key : ∀ (l : List PlotOp) (ctx : PlotCtx), PlotAligned ctx →
      PlotAligned (l.foldl applyPlotOp ctx) := by
    intro l
    induction l with
    | nil => intro ctx h; exact h
    | cons op rest ih =>
      intro ctx h
      rcases op with ⟨v, t⟩ | _
      · exact ih _ (registerPlot_aligned ctx v t h)
      · exact ih _ (finalizeBar_aligned ctx h)
  exact key ops PlotCtx.init (fun p hp => by simp [PlotCtx.init] at hp)

/-- **C2.** After every `finalizeBar` call — hence after any sequence of
`feed` calls, each of which ends with `finalizeBar` — every registered
plot series has length exactly `bar_index`: `finalizeBar` appends NaN to
each registered series whose length is ≤ the current bar index (every
reachable series is at most one ahead), so every series reaches length
`bar_index + 1`, and only then is `bar_index` incremented. -/
theorem finalizeBar_all_series_aligned (ops : List PlotOp) (p : String × List JVal)
    (hp : p ∈ (runPlotOps (ops ++ [PlotOp.fin])).plots) :
    p.2.length = (runPlotOps (ops ++ [PlotOp.fin])).currentBarIndex := by
  have hfold : runPlotOps (ops ++ [PlotOp.fin]) = finalizeBar (runPlotOps ops) := by
    simp [runPlotOps, List.foldl_append, applyPlotOp]
  rw [hfold] at hp ⊢
  exact finalizeBar_aligns _ (runPlotOps_aligned ops) p hp

/-- Witness for C2: one registered plot, one finalized bar. -/
theorem finalizeBar_all_series_aligned_witness :
    ("a", [JVal.num 1]) ∈ (runPlotOps ([PlotOp.reg (JVal.num 1) "a"] ++ [PlotOp.fin])).plots
  ∧ ("a", [JVal.num 1]).2.length
      = (runPlotOps ([PlotOp.reg (JVal.num 1) "a"] ++ [PlotOp.fin])).currentBarIndex :=
  ⟨by decide, finalizeBar_all_series_aligned [PlotOp.reg (JVal.num 1) "a"] _ (by decide)⟩

/-! ### C7: registering an unseen title -/

/-- **C7.** When `registerPlot` is called with an unseen title, it creates
the series, back-fills it with exactly `bar_index` NaN values (from bar 0),
and then writes the given value at position `bar_index` (appending, since
nothing was written on this bar for a fresh series): the registered series
is `replicate bar_index NaN ++ [value]`, of length `bar_index + 1`, with
the value at position `bar_index` and NaN at every earlier position. -/
theorem registerPlot_unseen_backfills (ctx : PlotCtx) (v : JVal) (t : String)
    (h : plotsGet ctx.plots t = none) :
    plotsGet (registerPlot ctx v t).plots t
      = some (List.replicate ctx.currentBarIndex JVal.nan ++ [v])
  ∧ (List.replicate ctx.currentBarIndex JVal.nan ++ [v]).length = ctx.currentBarIndex + 1
  ∧ (List.replicate ctx.currentBarIndex JVal.nan ++ [v])[ctx.currentBarIndex]? = some v
  ∧ ∀ i < ctx.currentBarIndex,
      (List.replicate ctx.currentBarIndex JVal.nan ++ [v])[i]? = some JVal.nan := by
  refine ⟨?_, by simp, ?_, ?_⟩
  · unfold registerPlot
    rw [h]
    simp only [List.length_replicate, if_neg (lt_irrefl _)]
    exact plotsGet_plotsSet_self _ _ _
  · rw [List.getElem?_append_right (by simp)]
    simp
  · intro i hi
    rw [List.getElem?_append_left (by simp [hi])]
    simp [List.getElem?_replicate, hi]

/-- Witness for C7: bar index 2, fresh title. -/
theorem registerPlot_unseen_backfills_witness :
    plotsGet (registerPlot ⟨2, []⟩ (JVal.num 7) "p").plots "p"
      = some [JVal.nan, JVal.nan, JVal.num 7] := by
  have h := (registerPlot_unseen_backfills ⟨2, []⟩ (JVal.num 7) "p" rfl).1
  simpa using h

/-! ### C3: `highest` during warm-up -/

set_option maxRecDepth 10000 in
/-- **C3 counterexample.** Feeding `close = 1, 2, …, 50` through
`plot(highest(close, 5), "h")` does *not* put NaN at positions 0–3: the
series value at position 0 is the number 1 (the maximum of the single
available sample), not the NaN sentinel — `highest` has no warm-up guard. -/
theorem highest_s5_warmup_counterexample :
    ((plotsGet (s5Run s5Prices).2.plots "h").getD [])[0]? = some (JVal.num 1)
  ∧ some (JVal.num 1) ≠ some JVal.nan := by
  constructor
  · decide
  · decide

set_option maxRecDepth 10000 in
/-- **C3 amended.** The buffer-backed rolling operations (such as `sma`)
do return NaN until `length` samples have been seen, but the
monotonic-deque extremes do not: `highest` returns the extremum of however
many samples are available.  Consequently the S5 feed
`close = 1, 2, …, 50` with `plot(highest(close, 5), "h")` produces
`series[i] = i + 1` at *every* position `i` (including `i = 0..3`). -/
theorem highest_s5_series_characterization :
    plotsGet (s5Run s5Prices).2.plots "h"
      = some ((List.range 50).map (fun i => JVal.num ((i + 1 : ℕ) : ℚ))) := by
  decide

/-! ### C4: indicators invoked with non-positive length -/

/-- Evaluation shape of one `sma` call (update, trim, return). -/
lemma sma_eval (st : SumState) (s : ℚ) (L : ℤ) :
    sma st s L
      = (if ((trimBuffer (smaCore st s L).buffer L).length : ℤ) < L then JVal.nan
         else jsDiv (smaCore st s L).sum L,
         { smaCore st s L with buffer := trimBuffer (smaCore st s L).buffer L }) := by
  by_cases hc : ((trimBuffer (smaCore st s L).buffer L).length : ℤ) < L <;>
    simp [sma, hc]

/-- **C4 counterexample.** `sma` invoked with `length = -1` on a fresh
slot returns the number 0 (the rebuild loop sums an empty window and
`0 / -1 = -0`), not the NaN sentinel. -/
theorem sma_negative_length_counterexample :
    (sma SumState.init 5 (-1)).1 = JVal.num 0
  ∧ (sma SumState.init 5 (-1)).1 ≠ JVal.nan := by
  have hwin : windowSum [(5 : ℚ)] (-1) = 0 := by
    unfold windowSum
    rw [List.drop_eq_nil_of_le (by simp)]
    rfl
  have hcore : smaCore SumState.init 5 (-1) = ⟨[5], some 0, -1, 0⟩ := by
    unfold smaCore
    rw [if_pos (show (-1 : ℤ) ≠ SumState.init.prevLength by simp [SumState.init])]
    simp [SumState.init, hwin]
  have h : (sma SumState.init 5 (-1)).1 = JVal.num 0 := by
    rw [sma_eval, hcore]
    simp [trimBuffer, MAX_BUFFER_SIZE, jsDiv]
  exact ⟨h, by rw [h]; exact fun hc => JVal.noConfusion hc⟩

/-- **C4 amended.** Indicators invoked with `length ≤ 0` raise no error
(every operation here is total and execution continues), but the result is
not uniformly the NaN sentinel: on a fresh slot, `sma` with a negative
length returns the number 0 (`0 / length`), `sma` with `length = 0`
returns NaN (`0 / 0`), and `highest` with any `length ≤ 0` returns JS
`undefined` (the front of an empty deque), which is not the NaN number. -/
theorem nonpositive_length_behavior (s : ℚ) (L : ℤ) (hL : L < 0) :
    (sma SumState.init s L).1 = JVal.num 0
  ∧ (sma SumState.init s 0).1 = JVal.nan
  ∧ (∀ L' : ℤ, L' ≤ 0 → (highest DequeState.init s L').1 = none) := by
  refine ⟨?_, ?_, ?_⟩
  · -- negative length: the rebuild loop sums an empty window, 0 / L = 0
    have hwin : windowSum [s] L = 0 := by
      unfold windowSum
      rw [List.drop_eq_nil_of_le (by simp; omega)]
      rfl
    have hcore : smaCore SumState.init s L = ⟨[s], some 0, L, 0⟩ := by
      unfold smaCore
      rw [if_pos (show L ≠ SumState.init.prevLength by simp [SumState.init]; omega)]
      simp [SumState.init, hwin]
    rw [sma_eval, hcore]
    have ht : trimBuffer [s] L = [s] := by
      simp [trimBuffer, MAX_BUFFER_SIZE]
    simp only [ht]
    have hcond : ¬ ((([s] : List ℚ).length : ℤ) < L) := by simp; omega
    rw [if_neg hcond]
    have hne : L ≠ 0 := by omega
    simp [jsDiv, hne]
  · -- zero length: the O(1) update adds then subtracts the sample, 0 / 0 = NaN
    have hcore : smaCore SumState.init s 0 = ⟨[s], some (0 + s - s), 0, 1⟩ := by
      unfold smaCore
      rw [if_neg (show ¬ ((0 : ℤ) ≠ SumState.init.prevLength) by simp [SumState.init])]
      rw [if_neg (show ¬ (HEAL_SMA_INTERVAL ≤ SumState.init.counter + 1) by
        simp [SumState.init, HEAL_SMA_INTERVAL])]
      simp [SumState.init, smaExitSum]
    rw [sma_eval, hcore]
    have ht : trimBuffer [s] 0 = [s] := by
      simp [trimBuffer, MAX_BUFFER_SIZE]
    simp only [ht]
    have hcond : ¬ ((([s] : List ℚ).length : ℤ) < (0 : ℤ)) := by simp
    rw [if_neg hcond]
    have hz : (0 : ℚ) + s - s = 0 := by ring
    simp [jsDiv, hz]
  · -- highest: the deque ends up empty, its front is `undefined`
    intro L' hL'
    rcases hL'.lt_or_eq with hlt | he
    · have hupd : updateMonotonicDeque DequeState.init s L' false = ⟨[s], [], 1, L'⟩ := by
        simp only [updateMonotonicDeque, DequeState.init, List.nil_append]
        rw [if_pos (show L' ≠ (0 : ℤ) by omega)]
        rw [List.drop_eq_nil_of_le (show ([s] : List ℚ).length ≤
          ((([s] : List ℚ).length : ℤ) - L').toNat by simp; omega)]
        simp [dequeRebuild, trimBuffer, MAX_BUFFER_SIZE]
      unfold highest
      rw [hupd]
      simp
    · subst he
      have hupd : updateMonotonicDeque DequeState.init s 0 false = ⟨[s], [], 1, 0⟩ := by
        simp only [updateMonotonicDeque, DequeState.init, List.nil_append]
        rw [if_neg (show ¬ ((0 : ℤ) ≠ (0 : ℤ)) by simp)]
        simp [dequeInsert, trimBuffer, MAX_BUFFER_SIZE]
      unfold highest
      rw [hupd]
      simp

/-- Witness for C4 (amended) at `s = 5`, `L = -1`. -/
theorem nonpositive_length_behavior_witness :
    (sma SumState.init 5 (-1)).1 = JVal.num 0
  ∧ (sma SumState.init 5 0).1 = JVal.nan
  ∧ (∀ L' : ℤ, L' ≤ 0 → (highest DequeState.init 5 L').1 = none) :=
  nonpositive_length_behavior 5 (-1) (by norm_num)

/-! ### C8/C10: closing positions -/

/-- **C8.** On a non-flat position, `close_all` (and `close`, which
delegates to it) computes PnL as `(exit − entry)·|size|` for a long
position and `(entry − exit)·|size|` for a short one, appends exactly one
trade carrying those prices and that PnL, adds the PnL to cash, and resets
the position to zero. -/
theorem close_all_spec (ctx : StratCtx) (comment : String)
    (h : ctx.position.size ≠ 0) :
    ∃ tr : Trade,
      (close_all ctx comment).trades = ctx.trades ++ [tr]
    ∧ tr.pnl = (if 0 < ctx.position.size
        then (ctx.close - ctx.position.avgPrice) * |ctx.position.size|
        else (ctx.position.avgPrice - ctx.close) * |ctx.position.size|)
    ∧ tr.entryPrice = ctx.position.avgPrice
    ∧ tr.exitPrice = ctx.close
    ∧ tr.qty = |ctx.position.size|
    ∧ tr.direction = (if 0 < ctx.position.size then "long" else "short")
    ∧ (close_all ctx comment).cash = ctx.cash + tr.pnl
    ∧ (close_all ctx comment).position = ⟨0, 0⟩
    ∧ (∀ id : String, strategyClose ctx id = close_all ctx ("Close " ++ id)) := by
  refine ⟨{ id := if comment = "" then "Close" else comment,
            entryTime := 0,
            entryPrice := ctx.position.avgPrice,
            exitTime := ctx.time,
            exitPrice := ctx.close,
            qty := |ctx.position.size|,
            pnl := if 0 < ctx.position.size
              then (ctx.close - ctx.position.avgPrice) * |ctx.position.size|
              else (ctx.position.avgPrice - ctx.close) * |ctx.position.size|,
            direction := if 0 < ctx.position.size then "long" else "short" },
    ?_, rfl, rfl, rfl, rfl, rfl, ?_, ?_, fun _ => rfl⟩ <;>
    simp [close_all, h]

/-- Witness for C8: a long position of 3 at entry 90, closed at 100. -/
theorem close_all_spec_witness :
    (close_all ⟨100, 7, ⟨3, 90⟩, 1000, []⟩ "x").cash = 1030
  ∧ (close_all ⟨100, 7, ⟨3, 90⟩, 1000, []⟩ "x").position = ⟨0, 0⟩ := by
  obtain ⟨tr, _, hpnl, _, _, _, _, hcash, hpos, _⟩ :=
    close_all_spec ⟨100, 7, ⟨3, 90⟩, 1000, []⟩ "x" (by norm_num)
  refine ⟨?_, hpos⟩
  rw [hcash, hpnl]
  norm_num

/-- **C10.** On a flat position (`size = 0`), `close_all` — and hence
`close` — returns immediately: the whole context (trades log, cash,
position) is unchanged and no trade is recorded. -/
theorem close_all_flat_noop (ctx : StratCtx) (comment id : String)
    (h : ctx.position.size = 0) :
    close_all ctx comment = ctx
  ∧ strategyClose ctx id = ctx
  ∧ (close_all ctx comment).trades = ctx.trades
  ∧ (close_all ctx comment).cash = ctx.cash
  ∧ (close_all ctx comment).position = ctx.position := by
  have hc : close_all ctx comment = ctx := by
    unfold close_all
    rw [if_pos h]
  have hs : strategyClose ctx id = ctx := by
    unfold strategyClose close_all
    rw [if_pos h]
  exact ⟨hc, hs, by rw [hc], by rw [hc], by rw [hc]⟩

/-- Witness for C10: a flat context is untouched. -/
theorem close_all_flat_noop_witness :
    close_all ⟨100, 7, ⟨0, 0⟩, 555, []⟩ "c" = ⟨100, 7, ⟨0, 0⟩, 555, []⟩ :=
  (close_all_flat_noop ⟨100, 7, ⟨0, 0⟩, 555, []⟩ "c" "id" rfl).1

/-! ### C5/C6: the indentation shaper -/

/-- **C5 counterexample.** With `parenLevel = 1`, an `LBEG` run
(`"\n   "`, a newline plus three spaces of raw line-start whitespace) is
*not* hidden from the token stream delivered to the parser: `nextToken`
returns the raw `LBEG` token itself (the stream is `[LBEG]`, not `[]`),
because the lexer channel is the default channel, never the hidden one. -/
theorem paren_lbeg_delivered_counterexample :
    (nextTokenStep ⟨[0], none, 1⟩ ⟨TType.LBEG, "\n   ", 0⟩).1
      = [⟨TType.LBEG, "\n   ", 0⟩]
  ∧ (nextTokenStep ⟨[0], none, 1⟩ ⟨TType.LBEG, "\n   ", 0⟩).1 ≠ [] := by
  constructor
  · decide
  · decide

/-- **C5 amended.** Whenever `paren_depth > 0`, layout shaping of an
`LBEG` run is suppressed: no virtual BEGIN, END or LEND token is emitted
and the shaper state (in particular the indent stack) is untouched — but
the raw line-start whitespace token itself is passed through to the parser
unchanged (it would be dropped only if the lexer placed it on the hidden
channel, which the grammar never does); multi-line function calls and
array literals tokenize as one logical line because the parser's
expression rules simply never match `LBEG`. -/
theorem paren_suppresses_layout (st : LexSt) (t : Tok)
    (hty : t.ttype = TType.LBEG) (hp : 0 < st.parenLevel) :
    (nextTokenStep st t).1 = [t] ∧ (nextTokenStep st t).2 = st := by
  unfold nextTokenStep
  simp [hty, hp, lexerChannel, HIDDEN_CHANNEL]

/-- Witness for C5 (amended): `parenLevel = 2`, an `LBEG` of one space. -/
theorem paren_suppresses_layout_witness :
    (nextTokenStep ⟨[0], none, 2⟩ ⟨TType.LBEG, "\n ", 0⟩).1
      = [⟨TType.LBEG, "\n ", 0⟩] :=
  (paren_suppresses_layout ⟨[0], none, 2⟩ ⟨TType.LBEG, "\n ", 0⟩ rfl (by decide)).1

/-- **C6 counterexample.** From the state with indent stack `[4, 0]`
(top first) and `paren_depth = 0`, the line run `"\n  "` (landing width
2, which equals *no* remaining stack entry — the stack left is `[0]`)
still emits the additional trailing LEND: the emitted virtual tokens are
`LEND, END, LEND`, where the claim predicts only `LEND, END`. -/
theorem dedent_extra_lend_counterexample :
    (nextTokenStep ⟨[4, 0], some 4, 0⟩ ⟨TType.LBEG, "\n  ", 0⟩).1
      = [⟨TType.LEND, "<LEND>", 0⟩, ⟨TType.END, "<END>", 0⟩, ⟨TType.LEND, "<LEND>", 0⟩]
  ∧ (nextTokenStep ⟨[4, 0], some 4, 0⟩ ⟨TType.LBEG, "\n  ", 0⟩).2.indentStack = [0]
  ∧ ¬ ((2 : ℕ) ∈ ([0] : List ℕ)) := by
  refine ⟨?_, ?_, ?_⟩ <;> decide

/-- **C6 amended.** On a dedent (`w <` top of the indent stack,
`paren_depth = 0`) the shaper emits, in order: one virtual LEND, one
virtual END for each stack entry popped because it is greater than `w`,
and then one additional virtual LEND *unconditionally* — the guard is only
that the stack is nonempty, which always holds since the base entry 0 is
never popped; when the landing width matches no remaining entry an
alignment error is merely logged.  A non-`LBEG` trigger (implicit dedent)
or EOF is delivered after the virtual tokens. -/
theorem dedent_emission (st : LexSt) (w : ℕ) (trigger : Tok) (isEOF : Bool)
    (hw : w < st.indentStack.headD 0) :
    (handleIndentation st w trigger isEOF).1
      = (vtok .LEND "<LEND>" trigger ::
          (List.replicate (popCount st.indentStack w) (vtok .END "<END>" trigger)
            ++ [vtok .LEND "<LEND>" trigger]))
        ++ (if trigger.ttype ≠ TType.LBEG ∧ ¬ isEOF then [trigger]
            else if isEOF then [trigger] else [])
  ∧ (handleIndentation st w trigger isEOF).2.indentStack
      = st.indentStack.drop (popCount st.indentStack w) := by
  unfold handleIndentation
  rw [if_neg (by omega), if_pos hw]
  refine ⟨?_, rfl⟩
  by_cases h1 : trigger.ttype ≠ TType.LBEG ∧ ¬ isEOF
  · rw [if_pos h1, if_pos h1]
  · rw [if_neg h1, if_neg h1]
    by_cases h2 : isEOF = true
    · rw [if_pos h2, if_pos h2]
    · rw [if_neg h2, if_neg h2]
      simp

/-- Witness for C6 (amended): stack `[4, 0]`, landing width 2. -/
theorem dedent_emission_witness :
    (handleIndentation ⟨[4, 0], some 4, 0⟩ 2 ⟨TType.LBEG, "\n  ", 0⟩ false).1
      = [⟨TType.LEND, "<LEND>", 0⟩, ⟨TType.END, "<END>", 0⟩,
         ⟨TType.LEND, "<LEND>", 0⟩] := by
  have h := (dedent_emission ⟨[4, 0], some 4, 0⟩ 2 ⟨TType.LBEG, "\n  ", 0⟩ false
    (by decide)).1
  rw [h]
  decide

/-! ### C9: rsi's slot consumption -/

lemma statesGet_statesSet_self (states : List (Option Slot)) (idx : ℕ) (v : Slot) :
    statesGet (statesSet states idx v) idx = some v := by
  unfold statesGet statesSet
  by_cases h : idx < states.length
  · rw [if_pos h, List.getElem?_set_self', List.getElem?_eq_getElem h]
    rfl
  · rw [if_neg h]
    have hlen : (states ++ List.replicate (idx - states.length) (none : Option Slot)).length
        = idx := by simp; omega
    rw [List.getElem?_append_right (by rw [hlen]), hlen]
    simp

lemma statesGet_statesSet_ne (states : List (Option Slot)) (idx j : ℕ) (v : Slot)
    (h : j ≠ idx) : statesGet (statesSet states idx v) j = statesGet states j := by
  unfold statesGet statesSet
  by_cases hlt : idx < states.length
  · rw [if_pos hlt, List.getElem?_set_ne (Ne.symm h)]
  · rw [if_neg hlt]
    by_cases hj : j < states.length
    · rw [List.getElem?_append_left (by simp; omega), List.getElem?_append_left hj]
    · have horig : states[j]? = none := List.getElem?_eq_none (by omega)
      rcases Nat.lt_or_ge j idx with hlt2 | hge2
      · rw [List.getElem?_append_left (by simp; omega),
          List.getElem?_append_right (by omega),
          List.getElem?_replicate_of_lt (by omega), horig]
        rfl
      · rw [List.getElem?_eq_none (by simp; omega), horig]

/-- One `rma` call consumes exactly one slot: the counter advances by one,
every other slot is untouched, and its own slot ends up holding an
`EmaState` with a stored previous value. -/
lemma rmaC_spec (ctx : TaCtx) (s : ℚ) (l : ℤ) :
    (rmaC ctx s l).2.callCounter = ctx.callCounter + 1
  ∧ (∀ j, j ≠ ctx.callCounter →
      statesGet (rmaC ctx s l).2.states j = statesGet ctx.states j)
  ∧ ∃ y, statesGet (rmaC ctx s l).2.states ctx.callCounter
      = some (Slot.emaS (some y)) := by
  unfold rmaC getPersistentState
  cases hg : statesGet ctx.states ctx.callCounter with
  | none =>
    simp only [hg, emaPrev]
    refine ⟨trivial, ?_, ⟨s, ?_⟩⟩
    · intro j hj
      rw [statesGet_statesSet_ne _ _ _ _ hj, statesGet_statesSet_ne _ _ _ _ hj]
    · rw [statesGet_statesSet_self]
  | some slot =>
    simp only [hg]
    cases hp : emaPrev slot with
    | none =>
      simp only [hp]
      refine ⟨trivial, ?_, ⟨s, ?_⟩⟩
      · intro j hj
        rw [statesGet_statesSet_ne _ _ _ _ hj]
      · rw [statesGet_statesSet_self]
    | some p =>
      simp only [hp]
      refine ⟨trivial, ?_,
        ⟨s * (1 / (l : ℚ)) + p * (1 - 1 / (l : ℚ)), ?_⟩⟩
      · intro j hj
        rw [statesGet_statesSet_ne _ _ _ _ hj]
      · rw [statesGet_statesSet_self]

/-- The two `rma` sub-calls of `rsi` consume exactly the two slots after
`rsi`'s own. -/
lemma rsi_tail_spec (B : TaCtx) (c : ℕ) (hB : B.callCounter = c + 1)
    (a b : ℚ) (l : ℤ) :
    (rmaC (rmaC B a l).2 b l).2.callCounter = c + 3
  ∧ (∀ j, j ≠ c + 1 → j ≠ c + 2 →
      statesGet (rmaC (rmaC B a l).2 b l).2.states j = statesGet B.states j)
  ∧ (∃ y, statesGet (rmaC (rmaC B a l).2 b l).2.states (c + 1)
      = some (Slot.emaS (some y)))
  ∧ (∃ z, statesGet (rmaC (rmaC B a l).2 b l).2.states (c + 2)
      = some (Slot.emaS (some z))) := by
  obtain ⟨ha1, ha2, ha3⟩ := rmaC_spec B a l
  obtain ⟨hb1, hb2, hb3⟩ := rmaC_spec (rmaC B a l).2 b l
  rw [hB] at ha1 ha2 ha3
  rw [ha1] at hb1 hb2 hb3
  refine ⟨by rw [hb1], ?_, ?_, ?_⟩
  · intro j h1 h2
    rw [hb2 j (by omega), ha2 j h1]
  · obtain ⟨y, hy⟩ := ha3
    exact ⟨y, by rw [hb2 _ (by omega), hy]⟩
  · exact hb3

/-- **C9.** On every bar — including the very first — one `rsi` call
consumes exactly three persistent-state slots, in the same order: its own
previous-source slot at the current counter, then the two `rma` sub-call
slots at the next two indices (every other slot is untouched and the
counter advances by exactly 3).  On the first bar (when the stored
previous source reads as `undefined`) it still performs both `rma`
sub-calls (with input 0) before returning the NaN sentinel, so the per-bar
slot count and order never differ between the first bar and later bars. -/
theorem rsi_consumes_three_slots (ctx : TaCtx) (s : ℚ) (l : ℤ) :
    (rsiC ctx s l).2.callCounter = ctx.callCounter + 3
  ∧ (∀ j, j ≠ ctx.callCounter → j ≠ ctx.callCounter + 1 → j ≠ ctx.callCounter + 2 →
      statesGet (rsiC ctx s l).2.states j = statesGet ctx.states j)
  ∧ statesGet (rsiC ctx s l).2.states ctx.callCounter = some (Slot.srcS (some s))
  ∧ (∃ y, statesGet (rsiC ctx s l).2.states (ctx.callCounter + 1)
      = some (Slot.emaS (some y)))
  ∧ (∃ z, statesGet (rsiC ctx s l).2.states (ctx.callCounter + 2)
      = some (Slot.emaS (some z)))
  ∧ (rsiPrevSrc (statesGet ctx.states ctx.callCounter) = none →
      (rsiC ctx s l).1 = JVal.nan) := by
  cases hg : statesGet ctx.states ctx.callCounter with
  | none =>
    have hrp : getPersistentState ctx (Slot.srcS none)
        = (Slot.srcS none,
           { states := statesSet ctx.states ctx.callCounter (Slot.srcS none),
             callCounter := ctx.callCounter + 1 }) := by
      unfold getPersistentState
      rw [hg]
    simp only [rsiC, hrp, rsiPrevSrc]
    obtain ⟨ht1, ht2, ht3, ht4⟩ := rsi_tail_spec
      ⟨statesSet (statesSet ctx.states ctx.callCounter (Slot.srcS none))
        ctx.callCounter (Slot.srcS (some s)), ctx.callCounter + 1⟩
      ctx.callCounter rfl 0 0 l
    refine ⟨ht1, ?_, ?_, ht3, ht4, fun _ => trivial⟩
    · intro j h1 h2 h3
      rw [ht2 j h2 h3]
      show statesGet (statesSet (statesSet ctx.states ctx.callCounter (Slot.srcS none))
        ctx.callCounter (Slot.srcS (some s))) j = statesGet ctx.states j
      rw [statesGet_statesSet_ne _ _ _ _ h1, statesGet_statesSet_ne _ _ _ _ h1]
    · rw [ht2 ctx.callCounter (by omega) (by omega)]
      exact statesGet_statesSet_self _ _ _
  | some slot =>
    have hrp : getPersistentState ctx (Slot.srcS none)
        = (slot, { ctx with callCounter := ctx.callCounter + 1 }) := by
      unfold getPersistentState
      rw [hg]
    simp only [rsiC, hrp]
    obtain ⟨ht1, ht2, ht3, ht4⟩ := rsi_tail_spec
      ⟨statesSet ctx.states ctx.callCounter (Slot.srcS (some s)),
       ctx.callCounter + 1⟩
      ctx.callCounter rfl 0 0 l
    cases hps : rsiPrevSrc (some slot) with
    | none =>
      simp only [hps]
      refine ⟨ht1, ?_, ?_, ht3, ht4, fun _ => trivial⟩
      · intro j h1 h2 h3
        rw [ht2 j h2 h3]
        show statesGet (statesSet ctx.states ctx.callCounter (Slot.srcS (some s))) j
          = statesGet ctx.states j
        rw [statesGet_statesSet_ne _ _ _ _ h1]
      · rw [ht2 ctx.callCounter (by omega) (by omega)]
        exact statesGet_statesSet_self _ _ _
    | some p =>
      simp only [hps]
      obtain ⟨hu1, hu2, hu3, hu4⟩ := rsi_tail_spec
        ⟨statesSet ctx.states ctx.callCounter (Slot.srcS (some s)),
         ctx.callCounter + 1⟩
        ctx.callCounter rfl (max (s - p) 0) (max (-(s - p)) 0) l
      refine ⟨hu1, ?_, ?_, hu3, hu4, fun hcon => Option.noConfusion hcon⟩
      · intro j h1 h2 h3
        rw [hu2 j h2 h3]
        show statesGet (statesSet ctx.states ctx.callCounter (Slot.srcS (some s))) j
          = statesGet ctx.states j
        rw [statesGet_statesSet_ne _ _ _ _ h1]
      · rw [hu2 ctx.callCounter (by omega) (by omega)]
        exact statesGet_statesSet_self _ _ _

/-- Witness for C9: a fresh context; the first call consumes slots 0–2 and
returns NaN. -/
theorem rsi_consumes_three_slots_witness :
    (rsiC TaCtx.init 5 14).2.callCounter = TaCtx.init.callCounter + 3
  ∧ (rsiC TaCtx.init 5 14).1 = JVal.nan :=
  ⟨(rsi_consumes_three_slots TaCtx.init 5 14).1,
   (rsi_consumes_three_slots TaCtx.init 5 14).2.2.2.2.2 (by decide)⟩

end OpenPine
